import Mathlib

/-!
# Verification of `md2ipynb.py` (markdown → notebook segmenter)

Shallow embedding of the line-by-line segmentation state machine of
`markdown_to_notebook` in `src/md2ipynb.py`, together with theorems that
settle the claims about it.

Modelling conventions:
* A document is the decoded character stream the program reads (`List Char`);
  Python opens the file in text mode, so line terminators are already
  normalised to `'\n'`.
* `splitLines` models `f.readlines()`: split after every `'\n'`, keeping the
  terminator with its line; a final unterminated chunk forms a last line.
* The three regexes (lines 46–50 of the source) are modelled as decidable
  predicates on a line.  Python's `\s` additionally matches some rare
  Unicode whitespace; the embedding covers the ASCII whitespace characters,
  which is what every claim turns on.
* `rstripNL` models `str.rstrip('\n')`: remove **all** trailing `'\n'`
  characters (and only those) from the end of a string.
* The loop body (source lines 52–100) is `processLine`; the end-of-input
  code (lines 102–114) is `finalize`, whose Boolean records whether the
  "file ended while inside a code block" warning was printed.
* The I/O shell (existence check, read, write; source lines 20–38 and
  117–126) is `markdown_to_notebook`, with the filesystem abstracted into
  three parameters: does the input exist, what did the read produce (`none`
  for a read error), did the write succeed.
-/

/-- One input line: its characters, including the trailing `'\n'` if any. -/
abbrev Line := List Char

/-- Model of `f.readlines()` on the decoded character stream: split after
every `'\n'`, keeping the terminator; a trailing chunk without `'\n'` is the
final line; the empty stream yields no lines. -/
def splitLines : List Char → List Line
  | [] => []
  | c :: cs =>
    if c = '\n' then ['\n'] :: splitLines cs
    else
      match splitLines cs with
      | [] => [[c]]
      | l :: ls => (c :: l) :: ls

/-- The whitespace characters matched by the regex class `\s` (ASCII part). -/
def isPySpace (c : Char) : Bool :=
  c = ' ' || c = '\t' || c = '\n' || c = '\r' || c = '\x0b' || c = '\x0c'

/-- Model of `re.match(r"^```python\s*$", line, re.IGNORECASE)` (source line
46): three backticks, then the six letters of `python` in either case, then
only whitespace (which absorbs the line's `'\n'`). -/
def python_block_start_pattern (l : Line) : Bool :=
  match l with
  | c1 :: c2 :: c3 :: c4 :: c5 :: c6 :: c7 :: c8 :: c9 :: ws =>
    c1 = '`' && c2 = '`' && c3 = '`' &&
    c4.toLower = 'p' && c5.toLower = 'y' && c6.toLower = 't' &&
    c7.toLower = 'h' && c8.toLower = 'o' && c9.toLower = 'n' &&
    ws.all isPySpace
  | _ => false

/-- Model of `re.match(r"^```.*$", line)` (source line 48): `.*` matches any
characters of the line and `$` may sit before the final newline, so the
pattern holds exactly when the line starts with three backticks. -/
def any_block_start_pattern (l : Line) : Bool :=
  match l with
  | c1 :: c2 :: c3 :: _ => c1 = '`' && c2 = '`' && c3 = '`'
  | _ => false

/-- Model of `re.match(r"^```\s*$", line)` (source line 50): three backticks
followed only by whitespace (which absorbs the line's `'\n'`). -/
def block_end_pattern (l : Line) : Bool :=
  match l with
  | c1 :: c2 :: c3 :: ws => c1 = '`' && c2 = '`' && c3 = '`' && ws.all isPySpace
  | _ => false

/-- Model of `str.rstrip('\n')`: drop every trailing `'\n'`. -/
def rstripNL (s : List Char) : List Char :=
  (s.reverse.dropWhile (fun c => c = '\n')).reverse

/-- A notebook cell: `nbf.v4.new_markdown_cell` / `nbf.v4.new_code_cell`
applied to the cell's source text. -/
inductive Cell where
  | markdown (text : List Char)
  | code (text : List Char)
deriving DecidableEq, Repr

/-- The source text of a cell. -/
def cellText : Cell → List Char
  | .markdown t => t
  | .code t => t

/-- The loop state of `markdown_to_notebook` (source lines 40–43):
the cells emitted so far, `current_cell_lines`, `in_code_block`,
`is_python_block`. -/
structure SegState where
  cells : List Cell
  buffer : List Line
  in_code_block : Bool
  is_python_block : Bool
deriving DecidableEq, Repr

/-- One iteration of the loop over lines (source lines 52–100).  The
branches are flattened: the source first flushes a non-empty buffer and then
sets the flags; here each leaf states the resulting state directly, which is
the same function. -/
def processLine (st : SegState) (line : Line) : SegState :=
  if st.in_code_block then
    -- source lines 81–100
    if block_end_pattern line then
      if st.is_python_block then
        { cells := st.cells ++ [Cell.code (rstripNL st.buffer.flatten)],
          buffer := [], in_code_block := false, is_python_block := false }
      else
        -- the closing fence is kept for non-python blocks (line 90)
        { cells := st.cells ++ [Cell.markdown (rstripNL (st.buffer ++ [line]).flatten)],
          buffer := [], in_code_block := false, is_python_block := false }
    else
      { st with buffer := st.buffer ++ [line] }
  else
    -- source lines 57–80
    if python_block_start_pattern line then
      if st.buffer = [] then
        { st with in_code_block := true, is_python_block := true }
      else
        { cells := st.cells ++ [Cell.markdown (rstripNL st.buffer.flatten)],
          buffer := [], in_code_block := true, is_python_block := true }
    else if any_block_start_pattern line then
      -- the opening fence is kept for non-python blocks (line 77)
      if st.buffer = [] then
        { st with in_code_block := true, is_python_block := false, buffer := [line] }
      else
        { cells := st.cells ++ [Cell.markdown (rstripNL st.buffer.flatten)],
          buffer := [line], in_code_block := true, is_python_block := false }
    else
      { st with buffer := st.buffer ++ [line] }

/-- The end-of-input code (source lines 102–114).  The Boolean is `true`
exactly when the "file ended while inside a code block" warning (line 108)
is printed. -/
def finalize (st : SegState) : List Cell × Bool :=
  if st.buffer = [] then (st.cells, false)
  else if st.in_code_block then
    if st.is_python_block then
      (st.cells ++ [Cell.code (rstripNL st.buffer.flatten)], true)
    else
      (st.cells ++ [Cell.markdown (rstripNL st.buffer.flatten)], true)
  else
    (st.cells ++ [Cell.markdown (rstripNL st.buffer.flatten)], false)

/-- The initial loop state (source lines 40–43). -/
def initState : SegState := ⟨[], [], false, false⟩

/-- The whole segmentation pass of `markdown_to_notebook` (source lines
40–114) on a document's character stream: the emitted cells in order, and
whether the unterminated-block warning was printed. -/
def segmentDoc (doc : List Char) : List Cell × Bool :=
  finalize ((splitLines doc).foldl processLine initState)

/-- Result of one conversion call: `result` is the `return` value (`none`
models returning `None`), `wrote` records whether the output file was
opened for writing at all. -/
structure ConvResult where
  result : Option (List Cell)
  wrote : Bool
deriving DecidableEq, Repr

/-- The I/O shell of `markdown_to_notebook` (source lines 20–38 and
117–126), with the filesystem abstracted: `fileExists` models
`os.path.exists`, `readResult` the attempted read (`none` = exception),
`writeOk` the attempted write.  Segmentation happens only after both the
existence check and the read succeed, exactly as in the source. -/
def markdown_to_notebook (fileExists : Bool) (readResult : Option (List Char))
    (writeOk : Bool) : ConvResult :=
  if !fileExists then ⟨none, false⟩
  else
    match readResult with
    | none => ⟨none, false⟩
    | some doc =>
      let cells := (segmentDoc doc).fst
      if writeOk then ⟨some cells, true⟩ else ⟨none, true⟩

/-- Join cell texts back into one stream, inserting exactly one line
terminator between consecutive cells (the reconstruction of claim C4). -/
def joinNL : List (List Char) → List Char
  | [] => []
  | [t] => t
  | t :: ts => t ++ '\n' :: joinNL ts

/-- The lines of the document that are *not* Python fence lines, computed by
replaying the same state machine: in `Outside` a Python fence open is
dropped and everything else kept; inside a block a closing fence is dropped
exactly when the block is a Python block.  The two Booleans are
`in_code_block` and `is_python_block`. -/
def keptFrom : Bool → Bool → List Line → List Line
  | _, _, [] => []
  | inc, ispy, l :: ls =>
    if inc then
      if block_end_pattern l then
        if ispy then keptFrom false false ls else l :: keptFrom false false ls
      else l :: keptFrom true ispy ls
    else
      if python_block_start_pattern l then keptFrom true true ls
      else if any_block_start_pattern l then l :: keptFrom true false ls
      else l :: keptFrom false ispy ls

/-- The non-fence content of a document: every line except the Python
fence-open and fence-close lines recognised by the segmenter. -/
def keptLines (doc : List Char) : List Line := keptFrom false false (splitLines doc)

/-- Proof helper: the effect of `rstripNL` on a line list — drop trailing
all-newline lines and strip the trailing newlines of the last remaining
line. -/
def stripTail : List Line → List Line
  | [] => []
  | l :: ls =>
    match stripTail ls with
    | [] => if rstripNL l = [] then [] else [rstripNL l]
    | l' :: ls' => l :: l' :: ls'

section BasicLemmas

/-- Stripping a string ending in a newline removes that newline. -/
theorem rstripNL_append_newline (s : List Char) :
    rstripNL (s ++ ['\n']) = rstripNL s := by
  simp [rstripNL]

/-- A string without newlines is unchanged by `rstripNL`. -/
theorem rstripNL_no_newline {s : List Char} (h : '\n' ∉ s) : rstripNL s = s := by
  unfold rstripNL
  rcases hrev : s.reverse with _ | ⟨c, t⟩
  · have hs : s = [] := by simpa using congrArg List.reverse hrev
    simp [hs]
  · have hc : c ≠ '\n' := by
      intro hceq
      apply h
      rw [← hceq, ← List.mem_reverse, hrev]
      exact List.mem_cons_self _ _
    rw [List.dropWhile_cons, if_neg (by simp [hc])]
    rw [← hrev, List.reverse_reverse]

/-- How `rstripNL` distributes over append. -/
theorem rstripNL_append (x y : List Char) :
    rstripNL (x ++ y) = if rstripNL y = [] then rstripNL x else x ++ rstripNL y := by
  unfold rstripNL
  rw [List.reverse_append, List.dropWhile_append]
  by_cases h : (List.dropWhile (fun c => c = '\n') y.reverse) = []
  · simp [h]
  · simp [h, List.isEmpty_iff]

/-- The strip yields `[]` exactly on all-newline strings. -/
theorem rstripNL_eq_nil_iff (s : List Char) :
    rstripNL s = [] ↔ ∀ c ∈ s, c = '\n' := by
  unfold rstripNL
  rw [List.reverse_eq_nil_iff, List.dropWhile_eq_nil_iff]
  constructor
  · intro h c hc
    simpa using h c (List.mem_reverse.mpr hc)
  · intro h c hc
    simpa using h c (List.mem_reverse.mp hc)

/-- The result of `rstripNL` never ends in a newline. -/
theorem rstripNL_getLast?_ne (s : List Char) :
    (rstripNL s).getLast? ≠ some '\n' := by
  unfold rstripNL
  rw [List.getLast?_reverse]
  intro h
  have hne : List.dropWhile (fun c => c = '\n') s.reverse ≠ [] := by
    intro hnil; rw [hnil] at h; exact Option.noConfusion h
  have := List.head?_dropWhile_not (fun c => c = '\n') s.reverse
  rw [h] at this
  simp at this

/-- Equation: a leading newline forms a line of its own. -/
theorem splitLines_cons_newline (cs : List Char) :
    splitLines ('\n' :: cs) = ['\n'] :: splitLines cs := rfl

/-- Equation: a non-newline head before an empty rest forms a singleton. -/
theorem splitLines_cons_nil {c : Char} {cs : List Char} (hc : c ≠ '\n')
    (h : splitLines cs = []) : splitLines (c :: cs) = [[c]] := by
  unfold splitLines
  rw [if_neg hc, h]

/-- Equation: a non-newline head is prepended to the first line of the rest. -/
theorem splitLines_cons_cons {c : Char} {cs : List Char} {l : Line} {ls : List Line}
    (hc : c ≠ '\n') (h : splitLines cs = l :: ls) :
    splitLines (c :: cs) = (c :: l) :: ls := by
  unfold splitLines
  rw [if_neg hc, h]

/-- The last element is unchanged by a cons onto a non-empty list. -/
theorem getLast?_cons_ne {c : Char} {l : Line} (h : l ≠ []) :
    (c :: l).getLast? = l.getLast? := by
  cases l with
  | nil => exact absurd rfl h
  | cons d ds => exact List.getLast?_cons_cons

/-- Splitting and re-concatenating the lines recovers the document. -/
theorem splitLines_flatten (s : List Char) : (splitLines s).flatten = s := by
  induction s with
  | nil => rfl
  | cons c cs ih =>
    by_cases hc : c = '\n'
    · subst hc
      rw [splitLines_cons_newline, List.flatten_cons, ih]
      rfl
    · rcases h : splitLines cs with _ | ⟨l, ls⟩
      · rw [h, List.flatten_nil] at ih
        rw [splitLines_cons_nil hc h, ← ih]
        rfl
      · rw [h, List.flatten_cons] at ih
        rw [splitLines_cons_cons hc h, List.flatten_cons, List.cons_append, ih]

/-- A document has no lines exactly when it is empty. -/
theorem splitLines_eq_nil_iff (s : List Char) : splitLines s = [] ↔ s = [] := by
  constructor
  · intro h
    have hf := splitLines_flatten s
    rw [h] at hf
    exact hf.symm
  · rintro rfl; rfl

/-- Every produced line is non-empty and has no interior newline: the only
`'\n'` it may contain is its last character. -/
theorem splitLines_wf (s : List Char) :
    ∀ l ∈ splitLines s, l ≠ [] ∧ '\n' ∉ l.dropLast := by
  induction s with
  | nil => simp [splitLines]
  | cons c cs ih =>
    by_cases hc : c = '\n'
    · subst hc
      intro l hl
      rw [splitLines_cons_newline, List.mem_cons] at hl
      rcases hl with rfl | hl
      · exact ⟨by simp, by simp⟩
      · exact ih l hl
    · rcases h : splitLines cs with _ | ⟨l0, ls⟩
      · intro l hl
        rw [splitLines_cons_nil hc h, List.mem_singleton] at hl
        subst hl
        exact ⟨by simp, by simp⟩
      · intro l hl
        rw [splitLines_cons_cons hc h, List.mem_cons] at hl
        rcases hl with rfl | hl
        · have h0 := ih l0 (by rw [h]; exact List.mem_cons_self _ _)
          refine ⟨by simp, ?_⟩
          cases l0 with
          | nil => simp
          | cons d ds =>
            rw [List.dropLast_cons₂]
            intro hmem
            rcases List.mem_cons.mp hmem with hceq | hmem'
            · exact hc hceq.symm
            · exact h0.2 hmem'
        · exact ih l (by rw [h]; exact List.mem_cons_of_mem _ hl)

/-- Every produced line except the last ends in a newline. -/
theorem splitLines_dropLast_endsNL (s : List Char) :
    ∀ l ∈ (splitLines s).dropLast, l.getLast? = some '\n' := by
  induction s with
  | nil => simp [splitLines]
  | cons c cs ih =>
    by_cases hc : c = '\n'
    · subst hc
      rcases h : splitLines cs with _ | ⟨l0, ls⟩
      · rw [splitLines_cons_newline, h]
        simp
      · intro l hl
        rw [h] at ih
        rw [splitLines_cons_newline, h, List.dropLast_cons₂, List.mem_cons] at hl
        rcases hl with rfl | hl
        · simp
        · exact ih l hl
    · rcases h : splitLines cs with _ | ⟨l0, ls⟩
      · rw [splitLines_cons_nil hc h]
        simp
      · intro l hl
        rw [h] at ih
        rw [splitLines_cons_cons hc h] at hl
        cases ls with
        | nil => simp at hl
        | cons l1 ls' =>
          rw [List.dropLast_cons₂, List.mem_cons] at hl
          rcases hl with rfl | hl
          · have h0 : l0.getLast? = some '\n' := ih l0 (by simp)
            have hl0 : l0 ≠ [] := by rintro rfl; simp at h0
            rw [getLast?_cons_ne hl0]
            exact h0
          · exact ih l (by rw [List.dropLast_cons₂]; exact List.mem_cons_of_mem _ hl)

/-- A well-formed line ending in a newline is its stripped core plus that
newline, and the core is newline-free. -/
theorem line_decomp_endsNL {l : Line} (hwf : '\n' ∉ l.dropLast)
    (hend : l.getLast? = some '\n') :
    l = rstripNL l ++ ['\n'] ∧ '\n' ∉ rstripNL l := by
  have hne : l ≠ [] := by rintro rfl; simp at hend
  have hlast : l.getLast hne = '\n' := by
    rw [List.getLast?_eq_getLast l hne] at hend
    exact Option.some.inj hend
  have hdecomp : l.dropLast ++ ['\n'] = l := by
    rw [← hlast]; exact List.dropLast_append_getLast hne
  have hstrip : rstripNL l = l.dropLast := by
    conv_lhs => rw [← hdecomp]
    rw [rstripNL_append_newline, rstripNL_no_newline hwf]
  rw [hstrip]
  exact ⟨hdecomp.symm, hwf⟩

/-- A well-formed line not ending in a newline contains no newline at all
and is unchanged by `rstripNL`. -/
theorem line_decomp_noNL {l : Line} (hwf : '\n' ∉ l.dropLast) (hne : l ≠ [])
    (hend : l.getLast? ≠ some '\n') :
    '\n' ∉ l ∧ rstripNL l = l := by
  have hlast : l.getLast hne ≠ '\n' := by
    intro hceq
    exact hend (by rw [List.getLast?_eq_getLast l hne, hceq])
  have hnin : '\n' ∉ l := by
    intro hmem
    rw [← List.dropLast_append_getLast hne, List.mem_append] at hmem
    rcases hmem with hmem | hmem
    · exact hwf hmem
    · simp only [List.mem_singleton] at hmem
      exact hlast hmem.symm
  exact ⟨hnin, rstripNL_no_newline hnin⟩

end BasicLemmas

section MachineLemmas

/-- A line matching the Python fence-open pattern also matches the generic
fence-open pattern (it starts with three backticks). -/
theorem python_start_implies_any {l : Line}
    (h : python_block_start_pattern l = true) : any_block_start_pattern l = true := by
  unfold python_block_start_pattern at h
  unfold any_block_start_pattern
  rcases l with _ | ⟨c1, _ | ⟨c2, _ | ⟨c3, rest⟩⟩⟩ <;> simp_all
  rcases rest with _ | ⟨c4, _ | ⟨c5, _ | ⟨c6, _ | ⟨c7, _ | ⟨c8, _ | ⟨c9, ws⟩⟩⟩⟩⟩⟩ <;> simp_all

/-- Every step either emits no cell or appends exactly one cell whose text
is `rstripNL` of a flattened buffer. -/
theorem processLine_cells_shape (st : SegState) (line : Line) :
    (processLine st line).cells = st.cells ∨
    (∃ t, (processLine st line).cells = st.cells ++ [Cell.markdown (rstripNL t)]) ∨
    (∃ t, (processLine st line).cells = st.cells ++ [Cell.code (rstripNL t)]) := by
  unfold processLine
  split_ifs <;>
    first
      | exact Or.inl rfl
      | exact Or.inr (Or.inl ⟨_, rfl⟩)
      | exact Or.inr (Or.inr ⟨_, rfl⟩)

/-- The end-of-input flush has the same shape. -/
theorem finalize_cells_shape (st : SegState) :
    (finalize st).fst = st.cells ∨
    (∃ t, (finalize st).fst = st.cells ++ [Cell.markdown (rstripNL t)]) ∨
    (∃ t, (finalize st).fst = st.cells ++ [Cell.code (rstripNL t)]) := by
  unfold finalize
  split_ifs <;>
    first
      | exact Or.inl rfl
      | exact Or.inr (Or.inl ⟨_, rfl⟩)
      | exact Or.inr (Or.inr ⟨_, rfl⟩)

/-- Invariant carried over the whole run: every emitted cell's text is free
of a trailing newline. -/
theorem run_cells_no_trailing (rest : List Line) (st : SegState)
    (h : ∀ c ∈ st.cells, (cellText c).getLast? ≠ some '\n') :
    ∀ c ∈ (finalize (rest.foldl processLine st)).fst,
      (cellText c).getLast? ≠ some '\n' := by
  induction rest generalizing st with
  | nil =>
    intro c hc
    rcases finalize_cells_shape st with hsh | ⟨t, hsh⟩ | ⟨t, hsh⟩ <;>
      rw [List.foldl_nil] at hc <;> rw [hsh] at hc
    · exact h c hc
    all_goals
      rcases List.mem_append.mp hc with hc | hc
      · exact h c hc
      · simp only [List.mem_singleton] at hc
        subst hc
        simpa [cellText] using rstripNL_getLast?_ne t
  | cons l ls ih =>
    intro c hc
    rw [List.foldl_cons] at hc
    refine ih (processLine st l) ?_ c hc
    intro c' hc'
    rcases processLine_cells_shape st l with hsh | ⟨t, hsh⟩ | ⟨t, hsh⟩ <;> rw [hsh] at hc'
    · exact h c' hc'
    all_goals
      rcases List.mem_append.mp hc' with hc' | hc'
      · exact h c' hc'
      · simp only [List.mem_singleton] at hc'
        subst hc'
        simpa [cellText] using rstripNL_getLast?_ne t

/-- Running the loop outside a code block over lines that open no fence
just accumulates them in the buffer. -/
theorem foldl_outside_no_fence (lines : List Line) (st : SegState)
    (hout : st.in_code_block = false)
    (hnf : ∀ l ∈ lines, any_block_start_pattern l = false) :
    lines.foldl processLine st = { st with buffer := st.buffer ++ lines } := by
  induction lines generalizing st with
  | nil => cases st; simp
  | cons l ls ih =>
    have hany : any_block_start_pattern l = false := hnf l (List.mem_cons_self _ _)
    have hpy : python_block_start_pattern l = false := by
      cases hp : python_block_start_pattern l
      · rfl
      · rw [python_start_implies_any hp] at hany
        exact Bool.noConfusion hany
    rw [List.foldl_cons]
    have hstep : processLine st l = { st with buffer := st.buffer ++ [l] } := by
      unfold processLine
      rw [hout, hpy, hany]
      simp
    have hrest := ih { st with buffer := st.buffer ++ [l] } hout
      (fun l' hl' => hnf l' (List.mem_cons_of_mem _ hl'))
    rw [hstep, hrest]
    cases st
    simp

/-- Running the loop inside a code block over lines that close no fence
just accumulates them in the buffer. -/
theorem foldl_inblock_no_end (lines : List Line) (st : SegState)
    (hin : st.in_code_block = true)
    (hne : ∀ l ∈ lines, block_end_pattern l = false) :
    lines.foldl processLine st = { st with buffer := st.buffer ++ lines } := by
  induction lines generalizing st with
  | nil => cases st; simp
  | cons l ls ih =>
    have hend : block_end_pattern l = false := hne l (List.mem_cons_self _ _)
    rw [List.foldl_cons]
    have hstep : processLine st l = { st with buffer := st.buffer ++ [l] } := by
      unfold processLine
      rw [hin, hend]
      simp
    have hrest := ih { st with buffer := st.buffer ++ [l] } hin
      (fun l' hl' => hne l' (List.mem_cons_of_mem _ hl'))
    rw [hstep, hrest]
    cases st
    simp

end MachineLemmas

/-! ## Claims -/

/-- C1 (counterexample).  The claim says a flushed cell's text is the
buffered concatenation with *exactly one* trailing line terminator removed,
keeping all but the last of several.  For the document `"x\n\n\n"` the
single (end-of-input) flush buffers the three lines `"x\n"`, `"\n"`, `"\n"`,
whose concatenation ends in three terminators, so the claim predicts the
text `"x\n\n"`; the code's `rstrip` strips all three and produces `"x"`. -/
theorem c1_counterexample :
    (segmentDoc "x\n\n\n".data).fst = [Cell.markdown ['x']] ∧
    Cell.markdown "x\n\n".data ∉ (segmentDoc "x\n\n\n".data).fst := by
  constructor
  · decide
  · decide

/-- C1 (amended): when flushing a buffer into a cell the concatenation is
stripped of **all** trailing line terminators, so no emitted cell's text
(markdown or code, at a fence boundary or at end of input) ends in a line
terminator. -/
theorem c1_flush_strips_all_trailing_terminators (doc : List Char) :
    ∀ c ∈ (segmentDoc doc).fst, (cellText c).getLast? ≠ some '\n' := by
  unfold segmentDoc
  exact run_cells_no_trailing (splitLines doc) initState
    (by intro c hc; simp [initState] at hc)

/-- C1 witness: the amended theorem applied to the document `"# Title\n"`
and its markdown cell. -/
theorem c1_flush_strips_all_trailing_terminators_witness :
    (cellText (Cell.markdown "# Title".data)).getLast? ≠ some '\n' :=
  c1_flush_strips_all_trailing_terminators "# Title\n".data
    (Cell.markdown "# Title".data) (by decide)

/-- C2 (counterexample).  The claim says no flush of an empty buffer
produces a cell and no emitted cell has empty text.  The document
`"```python\n```\n"` closes a Python block whose buffer is empty: the close
branch flushes unconditionally and emits a `CodeCell` with empty text. -/
theorem c2_counterexample :
    (segmentDoc "```python\n```\n".data).fst = [Cell.code []] ∧
    cellText (Cell.code []) = [] := by
  constructor
  · decide
  · rfl

/-- C2 (amended): with an empty buffer, no cell is emitted by a step taken
outside a code block, and none by the end-of-input flush; but a fence-close
line seen inside a Python block flushes unconditionally and emits a
`CodeCell` with empty text. -/
theorem c2_empty_buffer_flushes (st : SegState) (line : Line)
    (hb : st.buffer = []) :
    (st.in_code_block = false → (processLine st line).cells = st.cells) ∧
    (finalize st).fst = st.cells ∧
    (st.in_code_block = true → st.is_python_block = true →
      block_end_pattern line = true →
      (processLine st line).cells = st.cells ++ [Cell.code []]) := by
  refine ⟨?_, ?_, ?_⟩
  · intro hout
    unfold processLine
    rw [hout]
    simp only [Bool.false_eq_true, if_false]
    split_ifs <;> simp_all
  · unfold finalize
    rw [if_pos hb]
  · intro hin hpy hend
    unfold processLine
    rw [hin, hpy, hend]
    simp [hb, rstripNL]

/-- C2 witness: the amended theorem applied inside a Python block with an
empty buffer at a fence-close line. -/
theorem c2_empty_buffer_flushes_witness :
    ((⟨[], [], true, true⟩ : SegState).in_code_block = false →
      (processLine ⟨[], [], true, true⟩ "```\n".data).cells =
        (⟨[], [], true, true⟩ : SegState).cells) ∧
    (finalize ⟨[], [], true, true⟩).fst = (⟨[], [], true, true⟩ : SegState).cells ∧
    ((⟨[], [], true, true⟩ : SegState).in_code_block = true →
      (⟨[], [], true, true⟩ : SegState).is_python_block = true →
      block_end_pattern "```\n".data = true →
      (processLine ⟨[], [], true, true⟩ "```\n".data).cells =
        (⟨[], [], true, true⟩ : SegState).cells ++ [Cell.code []]) :=
  c2_empty_buffer_flushes ⟨[], [], true, true⟩ "```\n".data rfl

/-- C5 (confirmed): the five-line document of Scenario 2 produces exactly
`MarkdownCell "Intro"`, `CodeCell "print(1)"`, `MarkdownCell "Outro"`, in
that order (and no warning). -/
theorem c5_scenario2 :
    segmentDoc "Intro\n```python\nprint(1)\n```\nOutro\n".data =
      ([Cell.markdown "Intro".data, Cell.code "print(1)".data,
        Cell.markdown "Outro".data], false) := by
  decide

/-- C7 (confirmed): in the `Outside` state a line matching the Python
fence-open pattern — which always also matches the generic fence-open
pattern — opens a Python block: the step enters the code-block state with
the Python flag set and an empty buffer (the fence line is not buffered),
never the generic-block state. -/
theorem c7_python_fence_tiebreak (st : SegState) (l : Line)
    (hpy : python_block_start_pattern l = true)
    (hout : st.in_code_block = false) :
    any_block_start_pattern l = true ∧
    (processLine st l).in_code_block = true ∧
    (processLine st l).is_python_block = true ∧
    (processLine st l).buffer = [] := by
  refine ⟨python_start_implies_any hpy, ?_⟩
  unfold processLine
  rw [hout]
  simp only [Bool.false_eq_true, if_false, hpy, if_true]
  split_ifs with hb <;> simp_all

/-- C7 witness: the theorem applied to the line `"```PyThOn  \n"` (mixed
case, trailing whitespace) with a non-empty markdown buffer pending. -/
theorem c7_python_fence_tiebreak_witness :
    any_block_start_pattern "```PyThOn  \n".data = true ∧
    (processLine ⟨[], [['x', '\n']], false, false⟩ "```PyThOn  \n".data).in_code_block = true ∧
    (processLine ⟨[], [['x', '\n']], false, false⟩ "```PyThOn  \n".data).is_python_block = true ∧
    (processLine ⟨[], [['x', '\n']], false, false⟩ "```PyThOn  \n".data).buffer = [] :=
  c7_python_fence_tiebreak ⟨[], [['x', '\n']], false, false⟩ "```PyThOn  \n".data
    (by decide) rfl

/-- C8 (confirmed): whenever the input ends while a Python block is open
with a non-empty buffer, the conversion still succeeds: the buffer is
emitted as a final `CodeCell` (text `rstrip`ped as usual), the
unterminated-block warning is surfaced, and the driver still writes and
returns a result. -/
theorem c8_unterminated_python_block (doc : List Char)
    (h1 : ((splitLines doc).foldl processLine initState).in_code_block = true)
    (h2 : ((splitLines doc).foldl processLine initState).is_python_block = true)
    (h3 : ((splitLines doc).foldl processLine initState).buffer ≠ []) :
    segmentDoc doc =
      (((splitLines doc).foldl processLine initState).cells ++
        [Cell.code (rstripNL
          ((splitLines doc).foldl processLine initState).buffer.flatten)],
       true) ∧
    (markdown_to_notebook true (some doc) true).result = some (segmentDoc doc).fst := by
  constructor
  · unfold segmentDoc finalize
    rw [if_neg h3, if_pos h1, if_pos h2]
  · rfl

/-- C8 witness: the theorem applied to Scenario 4's document
`"```python\nx=1\n"`, which yields the single `CodeCell "x=1"` plus the
warning. -/
theorem c8_unterminated_python_block_witness :
    segmentDoc "```python\nx=1\n".data =
      (((splitLines "```python\nx=1\n".data).foldl processLine initState).cells ++
        [Cell.code (rstripNL
          ((splitLines "```python\nx=1\n".data).foldl processLine initState).buffer.flatten)],
       true) ∧
    (markdown_to_notebook true (some "```python\nx=1\n".data) true).result =
      some (segmentDoc "```python\nx=1\n".data).fst :=
  c8_unterminated_python_block "```python\nx=1\n".data (by decide) (by decide) (by decide)

/-- C9 (confirmed): if the source does not exist, or reading it fails, the
conversion returns the failure signal and never opens the output file; the
segmenter is reached only after both checks pass. -/
theorem c9_abort_before_processing (ex : Bool) (rd : Option (List Char)) (w : Bool)
    (h : ex = false ∨ rd = none) :
    markdown_to_notebook ex rd w = ⟨none, false⟩ := by
  rcases h with rfl | rfl
  · rfl
  · cases ex <;> rfl

/-- C9 witness: a missing file (with a read that would have succeeded). -/
theorem c9_abort_before_processing_witness :
    markdown_to_notebook false (some ['a']) true = ⟨none, false⟩ :=
  c9_abort_before_processing false (some ['a']) true (Or.inl rfl)

/-- C3 (counterexample).  The claim says the single markdown cell's text is
the input with its *final* trailing line terminator removed.  The fence-free
non-empty document `"a\n\n"` should then give text `"a\n"`; the code gives
`"a"`, because `rstrip` removes every trailing terminator. -/
theorem c3_counterexample :
    (∀ l ∈ splitLines "a\n\n".data, any_block_start_pattern l = false) ∧
    "a\n\n".data ≠ [] ∧
    segmentDoc "a\n\n".data = ([Cell.markdown ['a']], false) ∧
    Cell.markdown "a\n".data ∉ (segmentDoc "a\n\n".data).fst := by
  refine ⟨by decide, by decide, by decide, by decide⟩

/-- C3 (amended): for every non-empty input none of whose lines opens a
fence, the output is exactly one `MarkdownCell` whose text is the whole
input with **all** trailing line terminators removed (and no warning); the
empty input yields zero cells. -/
theorem c3_no_fence_single_markdown (doc : List Char) (hne : doc ≠ [])
    (hnf : ∀ l ∈ splitLines doc, any_block_start_pattern l = false) :
    segmentDoc doc = ([Cell.markdown (rstripNL doc)], false) ∧
    segmentDoc [] = ([], false) := by
  constructor
  · unfold segmentDoc
    rw [foldl_outside_no_fence _ initState rfl hnf]
    have hsl : splitLines doc ≠ [] := by
      rw [ne_eq, splitLines_eq_nil_iff]
      exact hne
    unfold finalize
    simp only [initState, List.nil_append]
    rw [if_neg hsl]
    simp [splitLines_flatten]
  · rfl

/-- C3 witness: the amended theorem applied to Scenario 1's input
`"# Title\n"`, whose single markdown cell has text `"# Title"`. -/
theorem c3_no_fence_single_markdown_witness :
    segmentDoc "# Title\n".data = ([Cell.markdown (rstripNL "# Title\n".data)], false) ∧
    segmentDoc [] = ([], false) :=
  c3_no_fence_single_markdown "# Title\n".data (by decide) (by decide)

/-- C6 (confirmed): a document that is exactly one complete non-Python
fenced block — an opening fence line that matches the generic but not the
Python pattern, body lines closing no fence, and a closing fence line —
produces a single `MarkdownCell` containing the whole block, both fence
lines included (with the usual trailing-terminator strip), and no
`CodeCell`. -/
theorem c6_nonpython_block_is_markdown (doc : List Char) (openL closeL : Line)
    (body : List Line)
    (hsplit : splitLines doc = openL :: (body ++ [closeL]))
    (hany : any_block_start_pattern openL = true)
    (hpy : python_block_start_pattern openL = false)
    (hbody : ∀ l ∈ body, block_end_pattern l = false)
    (hclose : block_end_pattern closeL = true) :
    segmentDoc doc = ([Cell.markdown (rstripNL doc)], false) := by
  unfold segmentDoc
  rw [hsplit, List.foldl_cons]
  have hstep : processLine initState openL = ⟨[], [openL], true, false⟩ := by
    unfold processLine
    rw [hpy, hany]
    simp [initState]
  rw [hstep, List.foldl_append, foldl_inblock_no_end body _ rfl hbody]
  simp only [List.foldl_cons, List.foldl_nil]
  have hclosestep :
      processLine ⟨[], [openL] ++ body, true, false⟩ closeL =
        ⟨[Cell.markdown (rstripNL (([openL] ++ body) ++ [closeL]).flatten)],
         [], false, false⟩ := by
    unfold processLine
    rw [hclose]
    simp
  rw [hclosestep]
  unfold finalize
  have hflat : ((([openL] ++ body) ++ [closeL]).flatten) = doc := by
    rw [← splitLines_flatten doc, hsplit]
    simp
  rw [hflat]
  simp

/-- C6 witness: the theorem applied to Scenario 3's input
`"```bash\nls\n```\n"`, giving the single markdown cell
`"```bash\nls\n```"`. -/
theorem c6_nonpython_block_is_markdown_witness :
    segmentDoc "```bash\nls\n```\n".data =
      ([Cell.markdown (rstripNL "```bash\nls\n```\n".data)], false) :=
  c6_nonpython_block_is_markdown "```bash\nls\n```\n".data
    "```bash\n".data "```\n".data [['l', 's', '\n']]
    (by decide) (by decide) (by decide) (by decide) (by decide)

section StripLemmas

/-- Cons equation for `rstripNL`. -/
theorem rstripNL_cons (c : Char) (cs : List Char) :
    rstripNL (c :: cs) =
      if rstripNL cs = [] then (if c = '\n' then [] else [c]) else c :: rstripNL cs := by
  unfold rstripNL
  rw [List.reverse_cons, List.dropWhile_append]
  by_cases h : List.dropWhile (fun x => x = '\n') cs.reverse = []
  · by_cases hc : c = '\n' <;> simp [h, hc]
  · simp [h, List.isEmpty_iff]

/-- Equation: trailing-blank-line collapse for `stripTail`, empty tail. -/
theorem stripTail_cons_nil {l : Line} {ls : List Line} (h : stripTail ls = []) :
    stripTail (l :: ls) = if rstripNL l = [] then [] else [rstripNL l] := by
  unfold stripTail
  rw [h]

/-- Equation: `stripTail` keeps a line when the stripped tail is non-empty. -/
theorem stripTail_cons_cons {l l' : Line} {ls ls' : List Line}
    (h : stripTail ls = l' :: ls') : stripTail (l :: ls) = l :: l' :: ls' := by
  unfold stripTail
  rw [h]

/-- The lines of a stripped document are the stripped tail of its lines. -/
theorem splitLines_rstripNL (s : List Char) :
    splitLines (rstripNL s) = stripTail (splitLines s) := by
  induction s with
  | nil => rfl
  | cons c cs ih =>
    rw [rstripNL_cons]
    by_cases hc : c = '\n'
    · subst hc
      by_cases h0 : rstripNL cs = []
      · rw [if_pos h0, if_pos rfl, splitLines_cons_newline]
        have hst : stripTail (splitLines cs) = [] := by rw [← ih, h0]; rfl
        rw [stripTail_cons_nil hst, if_pos (by decide : rstripNL ['\n'] = [])]
        rfl
      · rw [if_neg h0, splitLines_cons_newline, splitLines_cons_newline, ih]
        rcases hst : stripTail (splitLines cs) with _ | ⟨l', ls'⟩
        · exfalso
          rw [← ih, splitLines_eq_nil_iff] at hst
          rw [hst] at h0
          exact h0 rfl
        · rw [stripTail_cons_cons hst]
    · have hnilL : splitLines ([] : List Char) = [] := rfl
      have hnilT : stripTail ([] : List Line) = [] := rfl
      have hcnin : '\n' ∉ [c] := by
        simp only [List.mem_singleton]
        exact fun h => hc h.symm
      by_cases h0 : rstripNL cs = []
      · rw [if_pos h0, if_neg hc]
        rcases h1 : splitLines cs with _ | ⟨l0, ls0⟩
        · rw [splitLines_cons_nil hc hnilL, splitLines_cons_nil hc h1,
            stripTail_cons_nil hnilT, rstripNL_no_newline hcnin]
          simp
        · rw [splitLines_cons_nil hc hnilL, splitLines_cons_cons hc h1]
          have hst : stripTail (l0 :: ls0) = [] := by rw [← h1, ← ih, h0]; rfl
          rcases hst0 : stripTail ls0 with _ | ⟨a, as⟩
          · rw [stripTail_cons_nil hst0] at hst
            have hr0 : rstripNL l0 = [] := by
              by_contra hx
              rw [if_neg hx] at hst
              exact List.noConfusion hst
            rw [stripTail_cons_nil hst0, rstripNL_cons, if_pos hr0, if_neg hc]
            simp
          · rw [stripTail_cons_cons hst0] at hst
            exact absurd hst (by simp)
      · rw [if_neg h0]
        rcases h1 : splitLines (rstripNL cs) with _ | ⟨l1, ls1⟩
        · rw [splitLines_eq_nil_iff] at h1
          exact absurd h1 h0
        · rw [splitLines_cons_cons hc h1]
          rcases h2 : splitLines cs with _ | ⟨l0, ls0⟩
          · rw [splitLines_eq_nil_iff] at h2
            subst h2
            exact absurd rfl h0
          · rw [splitLines_cons_cons hc h2]
            have hihx : l1 :: ls1 = stripTail (l0 :: ls0) := by
              rw [← h1, ← h2, ih]
            rcases hst0 : stripTail ls0 with _ | ⟨a, as⟩
            · rw [stripTail_cons_nil hst0] at hihx
              by_cases hr0 : rstripNL l0 = []
              · rw [if_pos hr0] at hihx
                exact absurd hihx (by simp)
              · rw [if_neg hr0] at hihx
                obtain ⟨hl1, hls1⟩ := List.cons.inj hihx
                rw [stripTail_cons_nil hst0, rstripNL_cons, if_neg hr0,
                  if_neg (by simp), hl1, hls1]
            · rw [stripTail_cons_cons hst0] at hihx
              rw [stripTail_cons_cons hst0]
              obtain ⟨h', h''⟩ := List.cons.inj hihx
              rw [h', h'']

/-- Every line of a stripped list is a line of the original, possibly with
its trailing newlines removed. -/
theorem stripTail_mem {ls : List Line} {l' : Line} (h : l' ∈ stripTail ls) :
    ∃ l ∈ ls, l' = l ∨ l' = rstripNL l := by
  induction ls with
  | nil => exact absurd h (by simp [stripTail])
  | cons l ls ih =>
    rcases hst : stripTail ls with _ | ⟨a, as⟩
    · rw [stripTail_cons_nil hst] at h
      by_cases hr : rstripNL l = []
      · rw [if_pos hr] at h
        exact absurd h (by simp)
      · rw [if_neg hr] at h
        rw [List.mem_singleton] at h
        exact ⟨l, List.mem_cons_self _ _, Or.inr h⟩
    · rw [stripTail_cons_cons hst] at h
      rcases List.mem_cons.mp h with rfl | h
      · exact ⟨l', List.mem_cons_self _ _, Or.inl rfl⟩
      · rw [← hst] at h
        obtain ⟨l0, hl0, hor⟩ := ih h
        exact ⟨l0, List.mem_cons_of_mem _ hl0, hor⟩

/-- Every string is its stripped core followed by trailing newlines. -/
theorem exists_rstrip_decomp (l : List Char) :
    ∃ t, l = rstripNL l ++ t ∧ ∀ c ∈ t, c = '\n' := by
  refine ⟨(l.reverse.takeWhile (fun c => c = '\n')).reverse, ?_, ?_⟩
  · unfold rstripNL
    rw [← List.reverse_append, List.takeWhile_append_dropWhile, List.reverse_reverse]
  · intro c hc
    rw [List.mem_reverse] at hc
    simpa using List.mem_takeWhile_imp hc

/-- If the stripped form of a line matches the fence-close pattern, so does
the line itself (trailing newlines are whitespace for the pattern). -/
theorem block_end_of_rstrip {l : Line}
    (h : block_end_pattern (rstripNL l) = true) : block_end_pattern l = true := by
  obtain ⟨t, hdec, ht⟩ := exists_rstrip_decomp l
  rw [hdec]
  rcases hr : rstripNL l with _ | ⟨c1, _ | ⟨c2, _ | ⟨c3, ws⟩⟩⟩ <;> rw [hr] at h
  · exact absurd h (by simp [block_end_pattern])
  · exact absurd h (by simp [block_end_pattern])
  · exact absurd h (by simp [block_end_pattern])
  · show (decide (c1 = '`') && decide (c2 = '`') && decide (c3 = '`') &&
        (ws ++ t).all isPySpace) = true
    have h' : (decide (c1 = '`') && decide (c2 = '`') && decide (c3 = '`') &&
        ws.all isPySpace) = true := h
    simp only [Bool.and_eq_true, decide_eq_true_eq] at h' ⊢
    refine ⟨⟨⟨h'.1.1.1, h'.1.1.2⟩, h'.1.2⟩, ?_⟩
    rw [List.all_append, Bool.and_eq_true]
    refine ⟨h'.2, ?_⟩
    rw [List.all_eq_true]
    intro c hc
    rw [ht c hc]
    rfl

/-- Splitting a single well-formed line yields that line. -/
theorem splitLines_single {b : Line} (hb : b ≠ []) (hwf : '\n' ∉ b.dropLast) :
    splitLines b = [b] := by
  induction b with
  | nil => exact absurd rfl hb
  | cons c cs ih =>
    cases cs with
    | nil =>
      by_cases hc : c = '\n'
      · subst hc
        rw [splitLines_cons_newline]
        rfl
      · have hnilL : splitLines ([] : List Char) = [] := rfl
        rw [splitLines_cons_nil hc hnilL]
    | cons d ds =>
      have hc : c ≠ '\n' := by
        intro hceq
        apply hwf
        rw [List.dropLast_cons₂]
        exact hceq ▸ List.mem_cons_self _ _
      have hwf' : '\n' ∉ (d :: ds).dropLast := by
        intro hm
        apply hwf
        rw [List.dropLast_cons₂]
        exact List.mem_cons_of_mem _ hm
      rw [splitLines_cons_cons hc (ih (by simp) hwf')]

/-- Splitting after a newline-free prefix plus a newline splits there. -/
theorem splitLines_append_newline {x : List Char} (y : List Char) (hx : '\n' ∉ x) :
    splitLines (x ++ '\n' :: y) = (x ++ ['\n']) :: splitLines y := by
  induction x with
  | nil => rw [List.nil_append, splitLines_cons_newline]; rfl
  | cons c x' ih =>
    have hc : c ≠ '\n' := fun hceq => hx (hceq ▸ List.mem_cons_self c x')
    have hx' : '\n' ∉ x' := fun hm => hx (List.mem_cons_of_mem _ hm)
    rw [List.cons_append, splitLines_cons_cons hc (ih hx')]
    rfl

/-- Splitting the concatenation of a well-formed buffer (each line non-empty
with no interior newline, all but the last newline-terminated) recovers the
buffer. -/
theorem splitLines_flatten_of_wf (bs : List Line)
    (hwf : ∀ l ∈ bs, l ≠ [] ∧ '\n' ∉ l.dropLast)
    (hterm : ∀ l ∈ bs.dropLast, l.getLast? = some '\n') :
    splitLines bs.flatten = bs := by
  induction bs with
  | nil => rfl
  | cons b bs ih =>
    cases bs with
    | nil =>
      have hb := hwf b (List.mem_cons_self _ _)
      rw [List.flatten_cons, List.flatten_nil, List.append_nil]
      exact splitLines_single hb.1 hb.2
    | cons b2 bs2 =>
      have hbend : b.getLast? = some '\n' :=
        hterm b (by rw [List.dropLast_cons₂]; exact List.mem_cons_self _ _)
      have hbwf := hwf b (List.mem_cons_self _ _)
      obtain ⟨hdecomp, hcore⟩ := line_decomp_endsNL hbwf.2 hbend
      rw [List.flatten_cons]
      have hrw : b ++ (b2 :: bs2).flatten =
          rstripNL b ++ '\n' :: (b2 :: bs2).flatten := by
        conv_lhs => rw [hdecomp]
        rw [List.append_assoc]
        rfl
      rw [hrw, splitLines_append_newline _ hcore, ← hdecomp]
      rw [ih (fun l hl => hwf l (List.mem_cons_of_mem _ hl))
        (fun l hl => hterm l (by rw [List.dropLast_cons₂]; exact List.mem_cons_of_mem _ hl))]

end StripLemmas

section InvariantLemmas

/-- Membership in a `dropLast` is preserved by consing in front. -/
theorem mem_dropLast_cons {x l : Line} {ls : List Line}
    (h : x ∈ ls.dropLast) : x ∈ (l :: ls).dropLast := by
  cases ls with
  | nil => exact absurd h (by simp)
  | cons a as =>
    rw [List.dropLast_cons₂]
    exact List.mem_cons_of_mem _ h

/-- Complete enumeration of the six branches of one loop iteration. -/
theorem processLine_cases (st : SegState) (l : Line) :
    (st.in_code_block = true ∧ block_end_pattern l = true ∧
      st.is_python_block = true ∧
      processLine st l =
        ⟨st.cells ++ [Cell.code (rstripNL st.buffer.flatten)], [], false, false⟩) ∨
    (st.in_code_block = true ∧ block_end_pattern l = true ∧
      st.is_python_block = false ∧
      processLine st l =
        ⟨st.cells ++ [Cell.markdown (rstripNL (st.buffer ++ [l]).flatten)],
         [], false, false⟩) ∨
    (st.in_code_block = true ∧ block_end_pattern l = false ∧
      processLine st l = { st with buffer := st.buffer ++ [l] }) ∨
    (st.in_code_block = false ∧ python_block_start_pattern l = true ∧
      processLine st l =
        ⟨(if st.buffer = [] then st.cells
          else st.cells ++ [Cell.markdown (rstripNL st.buffer.flatten)]),
         [], true, true⟩) ∨
    (st.in_code_block = false ∧ python_block_start_pattern l = false ∧
      any_block_start_pattern l = true ∧
      processLine st l =
        ⟨(if st.buffer = [] then st.cells
          else st.cells ++ [Cell.markdown (rstripNL st.buffer.flatten)]),
         [l], true, false⟩) ∨
    (st.in_code_block = false ∧ python_block_start_pattern l = false ∧
      any_block_start_pattern l = false ∧
      processLine st l = { st with buffer := st.buffer ++ [l] }) := by
  cases h1 : st.in_code_block
  · cases h2 : python_block_start_pattern l
    · cases h3 : any_block_start_pattern l
      · refine Or.inr (Or.inr (Or.inr (Or.inr (Or.inr ⟨rfl, rfl, rfl, ?_⟩))))
        unfold processLine
        rw [h1, h2, h3]
        simp
      · refine Or.inr (Or.inr (Or.inr (Or.inr (Or.inl ⟨rfl, rfl, rfl, ?_⟩))))
        unfold processLine
        rw [h1, h2, h3]
        by_cases hb : st.buffer = [] <;> simp [hb]
    · refine Or.inr (Or.inr (Or.inr (Or.inl ⟨rfl, rfl, ?_⟩)))
      unfold processLine
      rw [h1, h2]
      by_cases hb : st.buffer = [] <;> simp [hb]
  · cases h2 : block_end_pattern l
    · refine Or.inr (Or.inr (Or.inl ⟨rfl, rfl, ?_⟩))
      unfold processLine
      rw [h1, h2]
      simp
    · cases h3 : st.is_python_block
      · refine Or.inr (Or.inl ⟨rfl, rfl, rfl, ?_⟩)
        unfold processLine
        rw [h1, h2, h3]
        simp
      · refine Or.inl ⟨rfl, rfl, rfl, ?_⟩
        unfold processLine
        rw [h1, h2, h3]
        simp

/-- The text flushed from a buffer of well-formed lines none of which
matches the fence-close pattern has no fence-close line either. -/
theorem buffer_text_no_close (B : List Line)
    (hwf : ∀ l ∈ B, l ≠ [] ∧ '\n' ∉ l.dropLast)
    (hterm : ∀ l ∈ B.dropLast, l.getLast? = some '\n')
    (hbe : ∀ l ∈ B, block_end_pattern l = false) :
    ∀ l' ∈ splitLines (rstripNL B.flatten), block_end_pattern l' = false := by
  intro l' hl'
  rw [splitLines_rstripNL, splitLines_flatten_of_wf B hwf hterm] at hl'
  obtain ⟨l0, hl0, hor⟩ := stripTail_mem hl'
  rcases hor with heq | heq
  · rw [heq]
    exact hbe l0 hl0
  · rw [heq]
    cases hbe' : block_end_pattern (rstripNL l0)
    · rfl
    · exact absurd (block_end_of_rstrip hbe') (by simp [hbe l0 hl0])

end InvariantLemmas

/-- Invariant run lemma for C10: starting from a state whose Python-block
buffer contains no fence-close line (and whose emitted code cells contain
none), the rest of the run keeps every emitted code cell free of fence-close
lines. -/
theorem run_code_cells_no_close (rest : List Line) : ∀ (st : SegState),
    (∀ l ∈ st.buffer, l ≠ [] ∧ '\n' ∉ l.dropLast) →
    (∀ l ∈ rest, l ≠ [] ∧ '\n' ∉ l.dropLast) →
    (rest ≠ [] → ∀ l ∈ st.buffer, l.getLast? = some '\n') →
    (∀ l ∈ st.buffer.dropLast, l.getLast? = some '\n') →
    (∀ l ∈ rest.dropLast, l.getLast? = some '\n') →
    (st.in_code_block = true → st.is_python_block = true →
      ∀ l ∈ st.buffer, block_end_pattern l = false) →
    (∀ t, Cell.code t ∈ st.cells → ∀ l' ∈ splitLines t, block_end_pattern l' = false) →
    ∀ t, Cell.code t ∈ (finalize (rest.foldl processLine st)).fst →
      ∀ l' ∈ splitLines t, block_end_pattern l' = false := by
  induction rest with
  | nil =>
    intro st hwfB _ _ htermB2 _ hbuf hcells t ht l' hl'
    rw [List.foldl_nil] at ht
    unfold finalize at ht
    by_cases hb : st.buffer = []
    · rw [if_pos hb] at ht
      exact hcells t ht l' hl'
    · rw [if_neg hb] at ht
      cases hic : st.in_code_block
      · rw [hic] at ht
        simp only [Bool.false_eq_true, if_false] at ht
        rcases List.mem_append.mp ht with ht | ht
        · exact hcells t ht l' hl'
        · simp at ht
      · rw [hic] at ht
        simp only [if_true] at ht
        cases hpy : st.is_python_block
        · rw [hpy] at ht
          simp only [Bool.false_eq_true, if_false] at ht
          rcases List.mem_append.mp ht with ht | ht
          · exact hcells t ht l' hl'
          · simp at ht
        · rw [hpy] at ht
          simp only [if_true] at ht
          rcases List.mem_append.mp ht with ht | ht
          · exact hcells t ht l' hl'
          · simp only [List.mem_singleton, Cell.code.injEq] at ht
            subst ht
            exact buffer_text_no_close st.buffer hwfB htermB2 (hbuf hic hpy) l' hl'
  | cons l ls ih =>
    intro st hwfB hwfR htermB htermB2 htermR hbuf hcells t ht l' hl'
    rw [List.foldl_cons] at ht
    have hlwf := hwfR l (List.mem_cons_self _ _)
    have hwfR' : ∀ x ∈ ls, x ≠ [] ∧ '\n' ∉ x.dropLast :=
      fun x hx => hwfR x (List.mem_cons_of_mem _ hx)
    have htermR' : ∀ x ∈ ls.dropLast, x.getLast? = some '\n' :=
      fun x hx => htermR x (mem_dropLast_cons hx)
    have hlend : ls ≠ [] → l.getLast? = some '\n' := by
      intro hls
      apply htermR
      cases ls with
      | nil => exact absurd rfl hls
      | cons a as =>
        rw [List.dropLast_cons₂]
        exact List.mem_cons_self _ _
    have hallB : ∀ x ∈ st.buffer, x.getLast? = some '\n' := htermB (by simp)
    have hdl : (st.buffer ++ [l]).dropLast = st.buffer := by simp
    rcases processLine_cases st l with
      ⟨hic, hend, hpy, heq⟩ | ⟨hic, hend, hpy, heq⟩ | ⟨hic, hend, heq⟩ |
      ⟨hic, hpy, heq⟩ | ⟨hic, hpy, hany, heq⟩ | ⟨hic, hpy, hany, heq⟩
    · -- python fence close: flush a code cell
      rw [heq] at ht
      refine ih ⟨st.cells ++ [Cell.code (rstripNL st.buffer.flatten)], [], false, false⟩
        (by simp) hwfR' (by simp) (by simp) htermR' (by simp) ?_ t ht l' hl'
      intro t' ht' l'' hl''
      rcases List.mem_append.mp ht' with ht' | ht'
      · exact hcells t' ht' l'' hl''
      · simp only [List.mem_singleton, Cell.code.injEq] at ht'
        subst ht'
        exact buffer_text_no_close st.buffer hwfB
          (fun x hx => hallB x (List.dropLast_subset _ hx))
          (hbuf hic hpy) l'' hl''
    · -- non-python fence close: flush a markdown cell
      rw [heq] at ht
      refine ih ⟨st.cells ++ [Cell.markdown (rstripNL ((st.buffer ++ [l]).flatten))],
        [], false, false⟩
        (by simp) hwfR' (by simp) (by simp) htermR' (by simp) ?_ t ht l' hl'
      intro t' ht' l'' hl''
      rcases List.mem_append.mp ht' with ht' | ht'
      · exact hcells t' ht' l'' hl''
      · simp at ht'
    · -- inside a block, ordinary line: buffer it
      rw [heq] at ht
      refine ih { st with buffer := st.buffer ++ [l] } ?_ hwfR' ?_ ?_ htermR' ?_
        hcells t ht l' hl'
      · intro x hx
        rcases List.mem_append.mp hx with hx | hx
        · exact hwfB x hx
        · simp only [List.mem_singleton] at hx
          subst hx
          exact hlwf
      · intro hls x hx
        rcases List.mem_append.mp hx with hx | hx
        · exact hallB x hx
        · simp only [List.mem_singleton] at hx
          subst hx
          exact hlend hls
      · intro x hx
        rw [hdl] at hx
        exact hallB x hx
      · intro h1 h2 x hx
        rcases List.mem_append.mp hx with hx | hx
        · exact hbuf h1 h2 x hx
        · simp only [List.mem_singleton] at hx
          subst hx
          exact hend
    · -- python fence open
      rw [heq] at ht
      refine ih ⟨(if st.buffer = [] then st.cells
          else st.cells ++ [Cell.markdown (rstripNL st.buffer.flatten)]),
        [], true, true⟩
        (by simp) hwfR' (by simp) (by simp) htermR' (by simp) ?_ t ht l' hl'
      intro t' ht' l'' hl''
      by_cases hbe : st.buffer = []
      · rw [if_pos hbe] at ht'
        exact hcells t' ht' l'' hl''
      · rw [if_neg hbe] at ht'
        rcases List.mem_append.mp ht' with ht' | ht'
        · exact hcells t' ht' l'' hl''
        · simp at ht'
    · -- generic fence open
      rw [heq] at ht
      refine ih ⟨(if st.buffer = [] then st.cells
          else st.cells ++ [Cell.markdown (rstripNL st.buffer.flatten)]),
        [l], true, false⟩
        ?_ hwfR' ?_ ?_ htermR' ?_ ?_ t ht l' hl'
      · intro x hx
        simp only [List.mem_singleton] at hx
        subst hx
        exact hlwf
      · intro hls x hx
        simp only [List.mem_singleton] at hx
        subst hx
        exact hlend hls
      · simp
      · intro h1 h2
        exact absurd h2 (by simp)
      · intro t' ht' l'' hl''
        by_cases hbe : st.buffer = []
        · rw [if_pos hbe] at ht'
          exact hcells t' ht' l'' hl''
        · rw [if_neg hbe] at ht'
          rcases List.mem_append.mp ht' with ht' | ht'
          · exact hcells t' ht' l'' hl''
          · simp at ht'
    · -- outside, ordinary line: buffer it
      rw [heq] at ht
      refine ih { st with buffer := st.buffer ++ [l] } ?_ hwfR' ?_ ?_ htermR' ?_
        hcells t ht l' hl'
      · intro x hx
        rcases List.mem_append.mp hx with hx | hx
        · exact hwfB x hx
        · simp only [List.mem_singleton] at hx
          subst hx
          exact hlwf
      · intro hls x hx
        rcases List.mem_append.mp hx with hx | hx
        · exact hallB x hx
        · simp only [List.mem_singleton] at hx
          subst hx
          exact hlend hls
      · intro x hx
        rw [hdl] at hx
        exact hallB x hx
      · intro h1 h2
        have h1' : st.in_code_block = true := h1
        rw [hic] at h1'
        exact absurd h1' (by simp)

/-- C10 (confirmed): no emitted `CodeCell`'s text contains a line matching
the fence-close pattern: inside a Python block a fence-close line always
closes the block instead of being buffered, so it can never end up in code
cell content — including the cell flushed at end of input. -/
theorem c10_code_cells_have_no_fence_close (doc : List Char) :
    ∀ t, Cell.code t ∈ (segmentDoc doc).fst →
      ∀ l ∈ splitLines t, block_end_pattern l = false := by
  unfold segmentDoc
  refine run_code_cells_no_close (splitLines doc) initState ?_ ?_ ?_ ?_ ?_ ?_ ?_
  · simp [initState]
  · exact splitLines_wf doc
  · simp [initState]
  · simp [initState]
  · exact splitLines_dropLast_endsNL doc
  · simp [initState]
  · simp [initState]

/-- C10 witness: the theorem applied to Scenario 2's document and its code
cell `"print(1)"`, whose single line is not a fence close. -/
theorem c10_code_cells_have_no_fence_close_witness :
    block_end_pattern "print(1)".data = false :=
  c10_code_cells_have_no_fence_close "Intro\n```python\nprint(1)\n```\nOutro\n".data
    "print(1)".data (by decide) "print(1)".data (by decide)

section ReconstructionLemmas

/-- Unfolding `joinNL` on a cons with non-empty tail. -/
theorem joinNL_cons {ts : List (List Char)} (t : List Char) (h : ts ≠ []) :
    joinNL (t :: ts) = t ++ '\n' :: joinNL ts := by
  cases ts with
  | nil => exact absurd rfl h
  | cons a as => rfl

/-- Joining texts that are all non-empty is empty only for no texts. -/
theorem joinNL_ne_nil {ts : List (List Char)} (h : ts ≠ [])
    (hts : ∀ t ∈ ts, t ≠ []) : joinNL ts ≠ [] := by
  cases ts with
  | nil => exact absurd rfl h
  | cons t ts' =>
    cases ts' with
    | nil => exact hts t (List.mem_cons_self _ _)
    | cons a as =>
      rw [joinNL_cons t (by simp)]
      simp

/-- The concatenation of non-blank lines keeps a non-newline character. -/
theorem rstrip_flatten_ne_nil {B : List Line} (hBne : B ≠ [])
    (hblank : ∀ l ∈ B, rstripNL l ≠ []) : rstripNL B.flatten ≠ [] := by
  cases B with
  | nil => exact absurd rfl hBne
  | cons b B' =>
    have hb := hblank b (List.mem_cons_self _ _)
    rw [ne_eq, rstripNL_eq_nil_iff] at hb ⊢
    intro hall
    apply hb
    intro c hc
    exact hall c (by rw [List.flatten_cons]; exact List.mem_append_left _ hc)

/-- A non-empty buffer of newline-terminated non-blank lines concatenates to
its stripped text plus exactly one newline. -/
theorem flatten_eq_text_append (B : List Line) (hBne : B ≠ [])
    (hall : ∀ l ∈ B, l.getLast? = some '\n')
    (hwf : ∀ l ∈ B, l ≠ [] ∧ '\n' ∉ l.dropLast)
    (hblank : ∀ l ∈ B, rstripNL l ≠ []) :
    B.flatten = rstripNL B.flatten ++ ['\n'] := by
  induction B with
  | nil => exact absurd rfl hBne
  | cons b B' ih =>
    have hbend := hall b (List.mem_cons_self _ _)
    have hbwf := hwf b (List.mem_cons_self _ _)
    obtain ⟨hdecomp, hcore⟩ := line_decomp_endsNL hbwf.2 hbend
    cases B' with
    | nil =>
      rw [List.flatten_cons, List.flatten_nil, List.append_nil]
      exact hdecomp
    | cons b2 B'' =>
      have hFne : rstripNL (b2 :: B'').flatten ≠ [] :=
        rstrip_flatten_ne_nil (by simp)
          (fun x hx => hblank x (List.mem_cons_of_mem _ hx))
      have ihx := ih (by simp)
        (fun x hx => hall x (List.mem_cons_of_mem _ hx))
        (fun x hx => hwf x (List.mem_cons_of_mem _ hx))
        (fun x hx => hblank x (List.mem_cons_of_mem _ hx))
      rw [List.flatten_cons]
      rw [rstripNL_append _ _, if_neg hFne]
      conv_lhs => rw [ihx]
      rw [List.append_assoc]
end ReconstructionLemmas

section CellsPrefix

/-- One step is oblivious to previously emitted cells: a prefix of cells
passes through untouched. -/
theorem processLine_cells_extend (l : Line) (cs cs0 : List Cell) (B0 : List Line)
    (i0 p0 : Bool) :
    processLine ⟨cs ++ cs0, B0, i0, p0⟩ l =
      { processLine ⟨cs0, B0, i0, p0⟩ l with
        cells := cs ++ (processLine ⟨cs0, B0, i0, p0⟩ l).cells } := by
  unfold processLine
  cases i0 <;> cases p0 <;>
    by_cases h2 : block_end_pattern l = true <;>
    by_cases h3 : python_block_start_pattern l = true <;>
    by_cases h4 : any_block_start_pattern l = true <;>
    by_cases h5 : B0 = [] <;>
    simp [h2, h3, h4, h5]

/-- The whole run is oblivious to previously emitted cells. -/
theorem foldl_cells_extend (rest : List Line) :
    ∀ (cs cs0 : List Cell) (B0 : List Line) (i0 p0 : Bool),
    rest.foldl processLine ⟨cs ++ cs0, B0, i0, p0⟩ =
      { rest.foldl processLine ⟨cs0, B0, i0, p0⟩ with
        cells := cs ++ (rest.foldl processLine ⟨cs0, B0, i0, p0⟩).cells } := by
  induction rest with
  | nil =>
    intro cs cs0 B0 i0 p0
    rfl
  | cons l ls ih =>
    intro cs cs0 B0 i0 p0
    rw [List.foldl_cons, List.foldl_cons, processLine_cells_extend]
    rcases hP : processLine ⟨cs0, B0, i0, p0⟩ l with ⟨pc, pB, pi, pp⟩
    exact ih cs pc pB pi pp

/-- The end-of-input flush is oblivious to previously emitted cells. -/
theorem finalize_cells_extend (cs cs0 : List Cell) (B0 : List Line) (i0 p0 : Bool) :
    finalize ⟨cs ++ cs0, B0, i0, p0⟩ =
      (cs ++ (finalize ⟨cs0, B0, i0, p0⟩).fst, (finalize ⟨cs0, B0, i0, p0⟩).snd) := by
  unfold finalize
  by_cases h1 : B0 = [] <;> cases i0 <;> cases p0 <;> simp [h1]

/-- Combination: run-then-finalize with a cell prefix. -/
theorem run_cells_extend (rest : List Line) (cs cs0 : List Cell) (B0 : List Line)
    (i0 p0 : Bool) :
    finalize (rest.foldl processLine ⟨cs ++ cs0, B0, i0, p0⟩) =
      (cs ++ (finalize (rest.foldl processLine ⟨cs0, B0, i0, p0⟩)).fst,
       (finalize (rest.foldl processLine ⟨cs0, B0, i0, p0⟩)).snd) := by
  rw [foldl_cells_extend]
  rcases h : rest.foldl processLine ⟨cs0, B0, i0, p0⟩ with ⟨rc, rB, ri, rp⟩
  exact finalize_cells_extend cs rc rB ri rp

end CellsPrefix

section KeptFromEquations

/-- Inside a Python block a fence close is dropped from the kept lines. -/
theorem keptFrom_close_py {l : Line} (ls : List Line)
    (hend : block_end_pattern l = true) :
    keptFrom true true (l :: ls) = keptFrom false false ls := by
  conv_lhs => rw [keptFrom]
  rw [hend]
  simp

/-- Inside a non-Python block a fence close is kept. -/
theorem keptFrom_close_other {l : Line} (ls : List Line)
    (hend : block_end_pattern l = true) :
    keptFrom true false (l :: ls) = l :: keptFrom false false ls := by
  conv_lhs => rw [keptFrom]
  rw [hend]
  simp

/-- Inside any block an ordinary line is kept. -/
theorem keptFrom_in_plain {l : Line} (ls : List Line) (p : Bool)
    (hend : block_end_pattern l = false) :
    keptFrom true p (l :: ls) = l :: keptFrom true p ls := by
  conv_lhs => rw [keptFrom]
  rw [hend]
  simp

/-- Outside, a Python fence open is dropped from the kept lines. -/
theorem keptFrom_open_py {l : Line} (ls : List Line) (p : Bool)
    (hpy : python_block_start_pattern l = true) :
    keptFrom false p (l :: ls) = keptFrom true true ls := by
  conv_lhs => rw [keptFrom]
  rw [hpy]
  simp

/-- Outside, a generic (non-Python) fence open is kept. -/
theorem keptFrom_open_any {l : Line} (ls : List Line) (p : Bool)
    (hpy : python_block_start_pattern l = false)
    (hany : any_block_start_pattern l = true) :
    keptFrom false p (l :: ls) = l :: keptFrom true false ls := by
  conv_lhs => rw [keptFrom]
  rw [hpy, hany]
  simp

/-- Outside, an ordinary line is kept. -/
theorem keptFrom_out_plain {l : Line} (ls : List Line) (p : Bool)
    (hpy : python_block_start_pattern l = false)
    (hany : any_block_start_pattern l = false) :
    keptFrom false p (l :: ls) = l :: keptFrom false p ls := by
  conv_lhs => rw [keptFrom]
  rw [hpy, hany]
  simp

end KeptFromEquations

/-- Specialisation of the prefix lemma to the single cell every flush
emits. -/
theorem run_cells_one (rest : List Line) (c : Cell) (B0 : List Line) (i0 p0 : Bool) :
    (finalize (rest.foldl processLine ⟨[c], B0, i0, p0⟩)).fst =
      c :: (finalize (rest.foldl processLine ⟨[], B0, i0, p0⟩)).fst := by
  have h := run_cells_extend rest [c] [] B0 i0 p0
  exact congrArg Prod.fst h

/-- Invariant run lemma for C4: over well-formed, blank-free lines, and
provided every emitted cell has non-empty text, joining the emitted cell
texts with single newlines equals the stripped concatenation of the kept
(non-Python-fence) lines. -/
theorem run_reconstruction (rest : List Line) : ∀ (B : List Line) (i p : Bool),
    (∀ l ∈ B, l ≠ [] ∧ '\n' ∉ l.dropLast) →
    (∀ l ∈ rest, l ≠ [] ∧ '\n' ∉ l.dropLast) →
    (∀ l ∈ B, rstripNL l ≠ []) →
    (∀ l ∈ rest, rstripNL l ≠ []) →
    (rest ≠ [] → ∀ l ∈ B, l.getLast? = some '\n') →
    (∀ l ∈ B.dropLast, l.getLast? = some '\n') →
    (∀ l ∈ rest.dropLast, l.getLast? = some '\n') →
    (∀ c ∈ (finalize (rest.foldl processLine ⟨[], B, i, p⟩)).fst, cellText c ≠ []) →
    joinNL (((finalize (rest.foldl processLine ⟨[], B, i, p⟩)).fst).map cellText) =
      rstripNL ((B ++ keptFrom i p rest).flatten) := by
  induction rest with
  | nil =>
    intro B i p hwfB _ hblankB _ _ htermB2 _ _
    rw [List.foldl_nil]
    have hk : keptFrom i p [] = [] := rfl
    rw [hk, List.append_nil]
    by_cases hB : B = []
    · subst hB
      have hfin : finalize ⟨[], [], i, p⟩ = ([], false) := by
        unfold finalize
        simp
      rw [hfin]
      rfl
    · cases i
      · have hfin : finalize ⟨[], B, false, p⟩ =
            ([Cell.markdown (rstripNL B.flatten)], false) := by
          unfold finalize
          simp [hB]
        rw [hfin]
        rfl
      · cases p
        · have hfin : finalize ⟨[], B, true, false⟩ =
              ([Cell.markdown (rstripNL B.flatten)], true) := by
            unfold finalize
            simp [hB]
          rw [hfin]
          rfl
        · have hfin : finalize ⟨[], B, true, true⟩ =
              ([Cell.code (rstripNL B.flatten)], true) := by
            unfold finalize
            simp [hB]
          rw [hfin]
          rfl
  | cons l ls ih =>
    intro B i p hwfB hwfR hblankB hblankR htermB htermB2 htermR hne
    have hlwf := hwfR l (List.mem_cons_self _ _)
    have hlblank := hblankR l (List.mem_cons_self _ _)
    have hwfR' : ∀ x ∈ ls, x ≠ [] ∧ '\n' ∉ x.dropLast :=
      fun x hx => hwfR x (List.mem_cons_of_mem _ hx)
    have hblankR' : ∀ x ∈ ls, rstripNL x ≠ [] :=
      fun x hx => hblankR x (List.mem_cons_of_mem _ hx)
    have htermR' : ∀ x ∈ ls.dropLast, x.getLast? = some '\n' :=
      fun x hx => htermR x (mem_dropLast_cons hx)
    have hlend : ls ≠ [] → l.getLast? = some '\n' := by
      intro hls
      apply htermR
      cases ls with
      | nil => exact absurd rfl hls
      | cons a as =>
        rw [List.dropLast_cons₂]
        exact List.mem_cons_self _ _
    have hallB : ∀ x ∈ B, x.getLast? = some '\n' := htermB (by simp)
    rw [List.foldl_cons] at hne ⊢
    cases i
    · -- Outside a code block
      by_cases hpyb : python_block_start_pattern l = true
      · -- Python fence open: the fence line is dropped from the kept lines
        rw [keptFrom_open_py ls p hpyb]
        by_cases hB : B = []
        · subst hB
          have heq' : processLine ⟨[], [], false, p⟩ l = ⟨[], [], true, true⟩ := by
            unfold processLine
            simp [hpyb]
          rw [heq'] at hne ⊢
          have ihE := ih [] true true (by simp) hwfR' (by simp) hblankR'
            (by simp) (by simp) htermR' hne
          simpa using ihE
        · have heq' : processLine ⟨[], B, false, p⟩ l =
              ⟨[Cell.markdown (rstripNL B.flatten)], [], true, true⟩ := by
            unfold processLine
            simp [hpyb, hB]
          rw [heq'] at hne ⊢
          rw [run_cells_one] at hne ⊢
          have hne0 : ∀ c ∈ (finalize (ls.foldl processLine ⟨[], [], true, true⟩)).fst,
              cellText c ≠ [] := fun c hc => hne c (List.mem_cons_of_mem _ hc)
          have ihE := ih [] true true (by simp) hwfR' (by simp) hblankR'
            (by simp) (by simp) htermR' hne0
          rw [List.nil_append] at ihE
          have hTne : ∀ t ∈ (finalize
              (ls.foldl processLine ⟨[], [], true, true⟩)).fst.map cellText, t ≠ [] := by
            intro t ht
            obtain ⟨c, hc, rfl⟩ := List.mem_map.mp ht
            exact hne0 c hc
          rw [List.map_cons]
          by_cases hR : rstripNL ((keptFrom true true ls).flatten) = []
          · have hT0 : (finalize
                (ls.foldl processLine ⟨[], [], true, true⟩)).fst.map cellText = [] := by
              by_contra hT
              exact absurd (ihE.trans hR) (joinNL_ne_nil hT hTne)
            rw [hT0, List.flatten_append, rstripNL_append, if_pos hR]
            rfl
          · have hT0ne : (finalize
                (ls.foldl processLine ⟨[], [], true, true⟩)).fst.map cellText ≠ [] := by
              intro h0
              rw [h0] at ihE
              exact hR ihE.symm
            rw [joinNL_cons _ hT0ne, ihE, List.flatten_append, rstripNL_append,
              if_neg hR]
            have hBd := flatten_eq_text_append B hB hallB hwfB hblankB
            conv_rhs => rw [hBd]
            rw [List.append_assoc]
            rfl
      · have hpyb0 : python_block_start_pattern l = false := by simpa using hpyb
        by_cases hanyb : any_block_start_pattern l = true
        · -- generic fence open: the fence line is kept
          rw [keptFrom_open_any ls p hpyb0 hanyb]
          by_cases hB : B = []
          · subst hB
            have heq' : processLine ⟨[], [], false, p⟩ l = ⟨[], [l], true, false⟩ := by
              unfold processLine
              simp [hpyb0, hanyb]
            rw [heq'] at hne ⊢
            have ihE := ih [l] true false
              (by intro x hx; rw [List.mem_singleton] at hx; subst hx; exact hlwf)
              hwfR'
              (by intro x hx; rw [List.mem_singleton] at hx; subst hx; exact hlblank)
              hblankR'
              (by intro hls x hx; rw [List.mem_singleton] at hx; subst hx
                  exact hlend hls)
              (by simp)
              htermR' hne
            simpa using ihE
          · have heq' : processLine ⟨[], B, false, p⟩ l =
                ⟨[Cell.markdown (rstripNL B.flatten)], [l], true, false⟩ := by
              unfold processLine
              simp [hpyb0, hanyb, hB]
            rw [heq'] at hne ⊢
            rw [run_cells_one] at hne ⊢
            have hne0 : ∀ c ∈ (finalize
                (ls.foldl processLine ⟨[], [l], true, false⟩)).fst, cellText c ≠ [] :=
              fun c hc => hne c (List.mem_cons_of_mem _ hc)
            have ihE := ih [l] true false
              (by intro x hx; rw [List.mem_singleton] at hx; subst hx; exact hlwf)
              hwfR'
              (by intro x hx; rw [List.mem_singleton] at hx; subst hx; exact hlblank)
              hblankR'
              (by intro hls x hx; rw [List.mem_singleton] at hx; subst hx
                  exact hlend hls)
              (by simp)
              htermR' hne0
            have hflat1 : (([l] ++ keptFrom true false ls).flatten : List Char)
                = l ++ (keptFrom true false ls).flatten := by simp
            rw [hflat1] at ihE
            have hRne : rstripNL (l ++ (keptFrom true false ls).flatten) ≠ [] := by
              rw [ne_eq, rstripNL_eq_nil_iff]
              intro hall'
              apply hlblank
              rw [rstripNL_eq_nil_iff]
              intro c hc
              exact hall' c (List.mem_append_left _ hc)
            have hT0ne : (finalize
                (ls.foldl processLine ⟨[], [l], true, false⟩)).fst.map cellText ≠ [] := by
              intro h0
              rw [h0] at ihE
              exact hRne ihE.symm
            rw [List.map_cons, joinNL_cons _ hT0ne, ihE]
            have hflat2 : ((B ++ l :: keptFrom true false ls).flatten : List Char)
                = B.flatten ++ (l ++ (keptFrom true false ls).flatten) := by simp
            rw [hflat2]
            conv_rhs => rw [rstripNL_append]
            rw [if_neg hRne]
            have hBd := flatten_eq_text_append B hB hallB hwfB hblankB
            conv_rhs => rw [hBd]
            rw [List.append_assoc]
            rfl
        · -- ordinary line outside: kept and buffered
          have hanyb0 : any_block_start_pattern l = false := by simpa using hanyb
          rw [keptFrom_out_plain ls p hpyb0 hanyb0]
          have heq' : processLine ⟨[], B, false, p⟩ l = ⟨[], B ++ [l], false, p⟩ := by
            unfold processLine
            simp [hpyb0, hanyb0]
          rw [heq'] at hne ⊢
          have ihE := ih (B ++ [l]) false p
            (by intro x hx
                rcases List.mem_append.mp hx with hx | hx
                · exact hwfB x hx
                · rw [List.mem_singleton] at hx; subst hx; exact hlwf)
            hwfR'
            (by intro x hx
                rcases List.mem_append.mp hx with hx | hx
                · exact hblankB x hx
                · rw [List.mem_singleton] at hx; subst hx; exact hlblank)
            hblankR'
            (by intro hls x hx
                rcases List.mem_append.mp hx with hx | hx
                · exact hallB x hx
                · rw [List.mem_singleton] at hx; subst hx; exact hlend hls)
            (by intro x hx
                rw [show (B ++ [l]).dropLast = B by simp] at hx
                exact hallB x hx)
            htermR' hne
          rw [ihE]
          have hlist : (B ++ [l]) ++ keptFrom false p ls = B ++ l :: keptFrom false p ls := by
            simp
          rw [hlist]
    · -- Inside a code block
      by_cases hend : block_end_pattern l = true
      · cases p
        · -- close of a non-Python block: fence kept, markdown flush
          rw [keptFrom_close_other ls hend]
          have heq' : processLine ⟨[], B, true, false⟩ l =
              ⟨[Cell.markdown (rstripNL ((B ++ [l]).flatten))], [], false, false⟩ := by
            unfold processLine
            simp [hend]
          rw [heq'] at hne ⊢
          rw [run_cells_one] at hne ⊢
          have hne0 : ∀ c ∈ (finalize
              (ls.foldl processLine ⟨[], [], false, false⟩)).fst, cellText c ≠ [] :=
            fun c hc => hne c (List.mem_cons_of_mem _ hc)
          have ihE := ih [] false false (by simp) hwfR' (by simp) hblankR'
            (by simp) (by simp) htermR' hne0
          rw [List.nil_append] at ihE
          have hTne : ∀ t ∈ (finalize
              (ls.foldl processLine ⟨[], [], false, false⟩)).fst.map cellText, t ≠ [] := by
            intro t ht
            obtain ⟨c, hc, rfl⟩ := List.mem_map.mp ht
            exact hne0 c hc
          rw [List.map_cons]
          have hflat3 : ((B ++ [l]).flatten : List Char) = B.flatten ++ l := by simp
          by_cases hR : rstripNL ((keptFrom false false ls).flatten) = []
          · have hT0 : (finalize
                (ls.foldl processLine ⟨[], [], false, false⟩)).fst.map cellText = [] := by
              by_contra hT
              exact absurd (ihE.trans hR) (joinNL_ne_nil hT hTne)
            rw [hT0]
            have hflat2 : ((B ++ l :: keptFrom false false ls).flatten : List Char)
                = (B.flatten ++ l) ++ (keptFrom false false ls).flatten := by simp
            rw [hflat2, rstripNL_append, if_pos hR, hflat3]
            rfl
          · have hlsne : ls ≠ [] := by
              rintro rfl
              exact hR rfl
            have hT0ne : (finalize
                (ls.foldl processLine ⟨[], [], false, false⟩)).fst.map cellText ≠ [] := by
              intro h0
              rw [h0] at ihE
              exact hR ihE.symm
            rw [joinNL_cons _ hT0ne, ihE]
            have hflat2 : ((B ++ l :: keptFrom false false ls).flatten : List Char)
                = (B.flatten ++ l) ++ (keptFrom false false ls).flatten := by simp
            rw [hflat2, rstripNL_append, if_neg hR]
            have hBl := flatten_eq_text_append (B ++ [l]) (by simp)
              (by intro x hx
                  rcases List.mem_append.mp hx with hx | hx
                  · exact hallB x hx
                  · rw [List.mem_singleton] at hx; subst hx; exact hlend hlsne)
              (by intro x hx
                  rcases List.mem_append.mp hx with hx | hx
                  · exact hwfB x hx
                  · rw [List.mem_singleton] at hx; subst hx; exact hlwf)
              (by intro x hx
                  rcases List.mem_append.mp hx with hx | hx
                  · exact hblankB x hx
                  · rw [List.mem_singleton] at hx; subst hx; exact hlblank)
            rw [← hflat3]
            conv_rhs => rw [hBl]
            rw [List.append_assoc]
            rfl
        · -- close of a Python block: fence dropped, code flush
          rw [keptFrom_close_py ls hend]
          have heq' : processLine ⟨[], B, true, true⟩ l =
              ⟨[Cell.code (rstripNL B.flatten)], [], false, false⟩ := by
            unfold processLine
            simp [hend]
          rw [heq'] at hne ⊢
          rw [run_cells_one] at hne ⊢
          have hne0 : ∀ c ∈ (finalize
              (ls.foldl processLine ⟨[], [], false, false⟩)).fst, cellText c ≠ [] :=
            fun c hc => hne c (List.mem_cons_of_mem _ hc)
          have ihE := ih [] false false (by simp) hwfR' (by simp) hblankR'
            (by simp) (by simp) htermR' hne0
          rw [List.nil_append] at ihE
          have hTne : ∀ t ∈ (finalize
              (ls.foldl processLine ⟨[], [], false, false⟩)).fst.map cellText, t ≠ [] := by
            intro t ht
            obtain ⟨c, hc, rfl⟩ := List.mem_map.mp ht
            exact hne0 c hc
          rw [List.map_cons]
          by_cases hR : rstripNL ((keptFrom false false ls).flatten) = []
          · have hT0 : (finalize
                (ls.foldl processLine ⟨[], [], false, false⟩)).fst.map cellText = [] := by
              by_contra hT
              exact absurd (ihE.trans hR) (joinNL_ne_nil hT hTne)
            rw [hT0, List.flatten_append, rstripNL_append, if_pos hR]
            rfl
          · have hBne : B ≠ [] := by
              intro hB0
              have hmem : Cell.code (rstripNL B.flatten) ∈
                  Cell.code (rstripNL B.flatten) ::
                    (finalize (ls.foldl processLine ⟨[], [], false, false⟩)).fst :=
                List.mem_cons_self _ _
              apply hne _ hmem
              rw [hB0]
              rfl
            have hT0ne : (finalize
                (ls.foldl processLine ⟨[], [], false, false⟩)).fst.map cellText ≠ [] := by
              intro h0
              rw [h0] at ihE
              exact hR ihE.symm
            rw [joinNL_cons _ hT0ne, ihE, List.flatten_append, rstripNL_append,
              if_neg hR]
            have hBd := flatten_eq_text_append B hBne hallB hwfB hblankB
            conv_rhs => rw [hBd]
            rw [List.append_assoc]
            rfl
      · -- ordinary line inside a block: kept and buffered
        have hend0 : block_end_pattern l = false := by simpa using hend
        rw [keptFrom_in_plain ls p hend0]
        have heq' : processLine ⟨[], B, true, p⟩ l = ⟨[], B ++ [l], true, p⟩ := by
          unfold processLine
          simp [hend0]
        rw [heq'] at hne ⊢
        have ihE := ih (B ++ [l]) true p
          (by intro x hx
              rcases List.mem_append.mp hx with hx | hx
              · exact hwfB x hx
              · rw [List.mem_singleton] at hx; subst hx; exact hlwf)
          hwfR'
          (by intro x hx
              rcases List.mem_append.mp hx with hx | hx
              · exact hblankB x hx
              · rw [List.mem_singleton] at hx; subst hx; exact hlblank)
          hblankR'
          (by intro hls x hx
              rcases List.mem_append.mp hx with hx | hx
              · exact hallB x hx
              · rw [List.mem_singleton] at hx; subst hx; exact hlend hls)
          (by intro x hx
              rw [show (B ++ [l]).dropLast = B by simp] at hx
              exact hallB x hx)
          htermR' hne
        rw [ihE]
        have hlist : (B ++ [l]) ++ keptFrom true p ls = B ++ l :: keptFrom true p ls := by
          simp
        rw [hlist]

/-- C4 (counterexample).  The claim says joining the emitted cells' texts
with one terminator between cells reconstructs the document minus the
Python fence lines.  For `"a\n\n```python\nb\n```\n"` the blank line before
the fence is swallowed by `rstrip`: the cells join to `"a\nb"`, while the
document minus its two Python fence lines is `"a\n\nb\n"` — the two differ
even after stripping trailing terminators. -/
theorem c4_counterexample :
    joinNL (((segmentDoc "a\n\n```python\nb\n```\n".data).fst).map cellText) =
      "a\nb".data ∧
    (keptLines "a\n\n```python\nb\n```\n".data).flatten = "a\n\nb\n".data ∧
    joinNL (((segmentDoc "a\n\n```python\nb\n```\n".data).fst).map cellText) ≠
      (keptLines "a\n\n```python\nb\n```\n".data).flatten ∧
    joinNL (((segmentDoc "a\n\n```python\nb\n```\n".data).fst).map cellText) ≠
      rstripNL ((keptLines "a\n\n```python\nb\n```\n".data).flatten) := by
  refine ⟨by decide, by decide, by decide, by decide⟩

/-- C4 (amended): provided no input line is blank and every emitted cell
has non-empty text, concatenating the texts of all emitted cells in order
with exactly one line terminator between consecutive cells reconstructs the
document with the Python fence-open and fence-close lines removed and all
trailing line terminators stripped. -/
theorem c4_reconstruction (doc : List Char)
    (hblank : ∀ l ∈ splitLines doc, rstripNL l ≠ [])
    (hcells : ∀ c ∈ (segmentDoc doc).fst, cellText c ≠ []) :
    joinNL (((segmentDoc doc).fst).map cellText) =
      rstripNL ((keptLines doc).flatten) := by
  unfold segmentDoc initState at hcells ⊢
  unfold keptLines
  have h := run_reconstruction (splitLines doc) [] false false
    (by simp) (splitLines_wf doc) (by simp) hblank
    (by simp) (by simp) (splitLines_dropLast_endsNL doc) hcells
  simpa using h

/-- C4 witness: the amended theorem applied to Scenario 2's document, whose
cells join back to `"Intro\nprint(1)\nOutro"`. -/
theorem c4_reconstruction_witness :
    joinNL (((segmentDoc "Intro\n```python\nprint(1)\n```\nOutro\n".data).fst).map cellText) =
      rstripNL ((keptLines "Intro\n```python\nprint(1)\n```\nOutro\n".data).flatten) :=
  c4_reconstruction "Intro\n```python\nprint(1)\n```\nOutro\n".data
    (by decide) (by decide)
